import Mathlib

/-!
# Pin client facade of the IPFS HTTP client (`pin.go`)

A shallow embedding of `pin.go` and the properties of its operations.

Collaborators that live outside `pin.go` are parameters of the definitions:

* `parse : String → Except E C` stands for `cid.Parse` applied to a string
  (`C` is the type of content identifiers, `E` the type of error values that
  collaborators produce);
* `ipld : C → R` stands for `iface.IpldPath`, which always returns a non-nil
  resolved path (`R` is the type of those non-nil values);
* the outcome of option resolution (`caopts.PinAddOptions` and its siblings)
  is passed in as an `Except E _` value;
* `Exec` is a function from the request that was built to its outcome.

Go interface values that may be `nil` are `Option`s: `none` is `nil`.
-/

namespace PinGo

/-! ## Errors -/

/-- Go `error` values that `pin.go` can return: either one it creates itself
with `errors.New`, or one handed to it by a collaborator. -/
inductive GoError (E : Type) where
  | errorsNew (msg : String)
  | external (e : E)
  deriving DecidableEq, Repr

/-- The `Error()` message of an error value; `msgOf` gives the message of a
collaborator's error, `errors.New(m).Error()` is `m`. -/
def GoError.Error {E : Type} (msgOf : E → String) : GoError E → String
  | .errorsNew msg => msg
  | .external e => msgOf e

/-! ## Data model -/

/-- The `pinRefKeyObject` struct: the value stored under each key of `pin/ls`.
`Type_` is the Go field `Type` (a reserved word here). -/
structure pinRefKeyObject where
  Type_ : String
  deriving DecidableEq, Repr

/-- The `pin` struct; `path` is an `iface.ResolvedPath` interface value. -/
structure pin (R : Type) where
  path : Option R
  typ : String
  deriving DecidableEq, Repr

/-- The method `(*pin).Path`. -/
def pin.Path {R : Type} (p : pin R) : Option R := p.path

/-- The method `(*pin).Type`. -/
def pin.Type_ {R : Type} (p : pin R) : String := p.typ

/-- The `badNode` struct; `JErr` is the field decoded from the JSON key `Err`. -/
structure badNode where
  Cid : String
  JErr : String
  deriving DecidableEq, Repr

/-- The method `(*badNode).Path`: `nil` when the identifier does not parse. -/
def badNode.Path {C E R : Type} (parse : String → Except E C) (ipld : C → R)
    (n : badNode) : Option R :=
  match parse n.Cid with
  | .error _ => none
  | .ok c => some (ipld c)

/-- The method `(*badNode).Err`. -/
def badNode.Err {C E : Type} (parse : String → Except E C) (n : badNode) :
    Option (GoError E) :=
  if n.JErr ≠ "" then
    some (.errorsNew n.JErr)
  else
    match parse n.Cid with
    | .error err => some (.external err)
    | .ok _ => none

/-- The `pinVerifyRes` struct, one record of the `pin/verify` stream. -/
structure pinVerifyRes where
  Cid : String
  JOk : Bool
  JBadNodes : List badNode
  deriving DecidableEq, Repr

/-- The method `(*pinVerifyRes).Ok`. -/
def pinVerifyRes.Ok (r : pinVerifyRes) : Bool := r.JOk

/-- The method `(*pinVerifyRes).BadNodes`: element `i` of the output is
element `i` of `JBadNodes`. -/
def pinVerifyRes.BadNodes (r : pinVerifyRes) : List badNode :=
  r.JBadNodes.map (fun n => n)

/-! ## Requests -/

/-- A value passed to `Option`: `pin.go` passes booleans and strings. -/
inductive OptValue where
  | bool (b : Bool)
  | str (s : String)
  deriving DecidableEq, Repr

/-- Modelled from the spec: the request builder returned by
`api.core().request(command, args...)`, which is declared outside `pin.go`.
It records the endpoint, the positional `arg=` values in the order given, and
the named options set so far. -/
structure RequestBuilder where
  command : String
  args : List String
  opts : List (String × OptValue)
  deriving DecidableEq, Repr

/-- Modelled from the spec: `api.core().request(command, args...)` starts a
request for `command` carrying exactly the given arguments and no options. -/
def request (command : String) (args : List String) : RequestBuilder :=
  { command := command, args := args, opts := [] }

/-- Modelled from the spec: `(*RequestBuilder).Option(key, value)` sets the
named option `key` to `value`, replacing an earlier value for the same key. -/
def RequestBuilder.Option (r : RequestBuilder) (key : String) (value : OptValue) :
    RequestBuilder :=
  { r with opts := (r.opts.filter (fun kv => kv.1 ≠ key)) ++ [(key, value)] }

/-- Resolved options of `Add` (`caopts.PinAddSettings`). -/
structure PinAddSettings where
  Recursive : Bool
  deriving DecidableEq, Repr

/-- Resolved options of `Ls` (`caopts.PinLsSettings`). -/
structure PinLsSettings where
  Type_ : String
  deriving DecidableEq, Repr

/-- Resolved options of `Update` (`caopts.PinUpdateSettings`). -/
structure PinUpdateSettings where
  Unpin : Bool
  deriving DecidableEq, Repr

/-- What a synchronous operation did: the requests it executed, in order, and
the `error` it returned. -/
structure CallResult (E : Type) where
  executed : List RequestBuilder
  err : Option (GoError E)
  deriving DecidableEq, Repr

namespace PinAPI

/-- The method `(*PinAPI).Add`. `resolved` is the outcome of
`caopts.PinAddOptions(opts...)`, `p` is `p.String()`, and `exec` is
`Exec(ctx, nil)` applied to the request that was built. -/
def Add {E : Type} (exec : RequestBuilder → Option E)
    (p : String) (resolved : Except E PinAddSettings) : CallResult E :=
  match resolved with
  | .error err => { executed := [], err := some (.external err) }
  | .ok options =>
    let req := (request "pin/add" [p]).Option "recursive" (.bool options.Recursive)
    { executed := [req], err := (exec req).map .external }

/-- The method `(*PinAPI).Rm`. -/
def Rm {E : Type} (exec : RequestBuilder → Option E) (p : String) : CallResult E :=
  let req := request "pin/rm" [p]
  { executed := [req], err := (exec req).map .external }

/-- The method `(*PinAPI).Update`. `resolved` is the outcome of
`caopts.PinUpdateOptions(opts...)`; `src` and `dst` are the `from` and `to`
parameters (as `String()` would print them), which the body never reads. -/
def Update {E : Type} (exec : RequestBuilder → Option E)
    (_src _dst : String) (resolved : Except E PinUpdateSettings) : CallResult E :=
  match resolved with
  | .error err => { executed := [], err := some (.external err) }
  | .ok options =>
    let req := (request "pin/update" []).Option "unpin" (.bool options.Unpin)
    { executed := [req], err := (exec req).map .external }

/-- The loop of `Ls` over `out.Keys`. `keys` lists the entries of the map in
the order the `range` statement visits them, `pins` is the slice built so far.
The result is the pair `Ls` returns: the slice (`none` is the `nil` slice) and
the error. -/
def lsLoop {C E R : Type} (parse : String → Except E C) (ipld : C → R) :
    List (String × pinRefKeyObject) → List (pin R) →
      Option (List (pin R)) × Option (GoError E)
  | [], pins => (some pins, none)
  | (hash, p) :: rest, pins =>
    match parse hash with
    | .error err => (none, some (.external err))
    | .ok c => lsLoop parse ipld rest (pins ++ [{ typ := p.Type_, path := some (ipld c) }])

/-- The method `(*PinAPI).Ls`. `resolved` is the outcome of
`caopts.PinLsOptions(opts...)`; `exec` is `Exec(ctx, &out)`, giving either an
error or the decoded `out.Keys`, listed in the order the loop will visit them. -/
def Ls {C E R : Type} (parse : String → Except E C) (ipld : C → R)
    (exec : RequestBuilder → Except E (List (String × pinRefKeyObject)))
    (resolved : Except E PinLsSettings) :
    Option (List (pin R)) × Option (GoError E) :=
  match resolved with
  | .error err => (none, some (.external err))
  | .ok options =>
    match exec ((request "pin/ls" []).Option "type" (.str options.Type_)) with
    | .error err => (none, some (.external err))
    | .ok keys => lsLoop parse ipld keys []

end PinAPI

/-! ## The decode task of `Verify`

The goroutine started by `Verify` is a transition system. Its environment
(the consumer of the channel `res`, and whoever cancels `ctx`) supplies the
labels that are not the task's own. -/

/-- What the task does to the outside: a record handed to the consumer over
`res`, `close(res)`, and `resp.Close()`. -/
inductive Event where
  | deliver (r : pinVerifyRes)
  | closeRes
  | respClose
  deriving DecidableEq, Repr

/-- Control points of the goroutine: about to call `dec.Decode` (line 142),
blocked in the `select` with the decoded `out` (line 146), returned with the
deferred `close(res)` pending, then with the deferred `resp.Close()` pending
(deferred calls run last-registered first), and finished. -/
inductive Pc where
  | decode
  | select (out : pinVerifyRes)
  | deferCloseRes
  | deferRespClose
  | done
  deriving DecidableEq, Repr

/-- State of the goroutine. `stream` is what is left of `resp.Output`, as the
outcomes of the `Decode` calls still to come: `some r` is a JSON value that
decodes into `r`, `none` is one that fails to decode, and on the empty list
`Decode` fails with end-of-stream (the response body is a stream that ends).
`ctxDone` tells whether `ctx.Done()` is
closed. `trace` lists the events so far, oldest first. -/
structure Task where
  pc : Pc
  stream : List (Option pinVerifyRes)
  ctxDone : Bool
  trace : List Event
  deriving DecidableEq, Repr

/-- The moves of the system: `tick` is the task's own next action (a `Decode`
call or a deferred call), `send` is the `select` taking `case res <- &out`
(the consumer receives), `ctxDone` is the `select` taking `case <-ctx.Done()`,
and `cancel` is the environment cancelling `ctx`. -/
inductive Label where
  | tick
  | send
  | ctxDone
  | cancel
  deriving DecidableEq, Repr

/-- One move of the system; `none` when the move is not enabled. -/
def step : Label → Task → Option Task
  | .tick, t =>
    match t.pc with
    | .decode =>
      match t.stream with
      | some out :: rest => some { t with pc := .select out, stream := rest }
      | none :: rest => some { t with pc := .deferCloseRes, stream := rest }
      | [] => some { t with pc := .deferCloseRes }
    | .deferCloseRes => some { t with pc := .deferRespClose, trace := t.trace ++ [.closeRes] }
    | .deferRespClose => some { t with pc := .done, trace := t.trace ++ [.respClose] }
    | .select _ => none
    | .done => none
  | .send, t =>
    match t.pc with
    | .select out => some { t with pc := .decode, trace := t.trace ++ [.deliver out] }
    | _ => none
  | .ctxDone, t =>
    match t.pc with
    | .select _ => if t.ctxDone then some { t with pc := .deferCloseRes } else none
    | _ => none
  | .cancel, t => some { t with ctxDone := true }

/-- An execution: the moves of a schedule taken one after the other. -/
def run : List Label → Task → Option Task
  | [], t => some t
  | l :: ls, t => (step l t).bind (run ls)

/-- The goroutine as `Verify` starts it on the response body `output`. -/
def spawn (output : List (Option pinVerifyRes)) : Task :=
  { pc := .decode, stream := output, ctxDone := false, trace := [] }

/-- The response of `Send`: its `Error` field and its `Output` body. -/
structure Response (E : Type) where
  Error : Option E
  Output : List (Option pinVerifyRes)

/-- The method `(*PinAPI).Verify`: the error it returns, or the channel
together with the goroutine it has started. -/
def PinAPI.Verify {E : Type} (send : RequestBuilder → Except E (Response E)) :
    Except (GoError E) Task :=
  match send ((request "pin/verify" []).Option "verbose" (.bool true)) with
  | .error err => .error (.external err)
  | .ok resp =>
    match resp.Error with
    | some err => .error (.external err)
    | none => .ok (spawn resp.Output)

/-- The move a task makes when `ctx` is never cancelled and the consumer is
always ready to receive. -/
def nextMove (t : Task) : Label :=
  match t.pc with
  | .select _ => .send
  | _ => .tick

/-- Runs the task for at most `fuel` moves with a consumer that keeps
receiving and no cancellation; stops early when no move is left. -/
def runToEnd : Nat → Task → Task
  | 0, t => t
  | fuel + 1, t =>
    match step (nextMove t) t with
    | some t' => runToEnd fuel t'
    | none => t

/-- The records the consumer has received, oldest first. -/
def delivered (t : Task) : List pinVerifyRes :=
  t.trace.filterMap (fun e => match e with
    | .deliver r => some r
    | _ => none)

/-- How many times `close(res)` has run. -/
def closeCount (t : Task) : Nat :=
  t.trace.countP (fun e => match e with
    | .closeRes => true
    | _ => false)

/-- How many times `resp.Close()` has run. -/
def releaseCount (t : Task) : Nat :=
  t.trace.countP (fun e => match e with
    | .respClose => true
    | _ => false)

/-- The longest run of values at the head of a stream that decode. -/
def decodable : List (Option pinVerifyRes) → List pinVerifyRes
  | some r :: rest => r :: decodable rest
  | _ => []

/-! ## Sample collaborators

Concrete stand-ins for the external collaborators, used to evaluate the
definitions on concrete inputs. -/

/-- A sample identifier parser: accepts exactly the strings that start with
`Qm`, and reports the rejected string otherwise. -/
def sampleParse (s : String) : Except String String :=
  match s.data with
  | 'Q' :: 'm' :: _ => .ok s
  | _ => .error ("invalid cid: " ++ s)

/-- A sample `IpldPath`: the textual path under `/ipld/`. -/
def sampleIpld (c : String) : String := "/ipld/" ++ c

/-- A sample record of the `pin/verify` stream: pin `name`, reported fine. -/
def sampleRecord (name : String) : pinVerifyRes :=
  { Cid := name, JOk := true, JBadNodes := [] }

/-- The pin that `Ls` is expected to build for one entry of the key map, when
its key parses. -/
def expectedPin {C E R : Type} (parse : String → Except E C) (ipld : C → R)
    (kv : String × pinRefKeyObject) : Option (pin R) :=
  match parse kv.1 with
  | .error _ => none
  | .ok c => some { path := some (ipld c), typ := kv.2.Type_ }

/-- The events still to come from a task when `ctx` is never cancelled and the
consumer keeps receiving. -/
def pending (t : Task) : List Event :=
  match t.pc with
  | .decode => (decodable t.stream).map Event.deliver ++ [Event.closeRes, Event.respClose]
  | .select out =>
    Event.deliver out :: ((decodable t.stream).map Event.deliver ++
      [Event.closeRes, Event.respClose])
  | .deferCloseRes => [Event.closeRes, Event.respClose]
  | .deferRespClose => [Event.respClose]
  | .done => []

/-- The task, taking the moves `moves` from `t`, finishes having added to its
trace exactly `close(res)` and then `resp.Close()`, each of which has then run
exactly once. -/
def FinishesBy (moves : List Label) (t : Task) : Prop :=
  ∃ t' : Task, run moves t = some t' ∧ t'.pc = Pc.done ∧
    t'.trace = t.trace ++ [Event.closeRes, Event.respClose] ∧
    closeCount t' = 1 ∧ releaseCount t' = 1

/-- A bound on the number of moves the task itself can still make. -/
def movesLeft (t : Task) : Nat :=
  match t.pc with
  | .decode => 2 * t.stream.length + 3
  | .select _ => 2 * t.stream.length + 4
  | .deferCloseRes => 2
  | .deferRespClose => 1
  | .done => 0

/-- The invariant of the task started on `s0`: the shape of its trace at each
control point, and how the records delivered relate to the stream. -/
def Inv (s0 : List (Option pinVerifyRes)) (t : Task) : Prop :=
  ∃ ds : List pinVerifyRes,
    match t.pc with
    | .decode =>
      t.trace = ds.map Event.deliver ∧ decodable s0 = ds ++ decodable t.stream ∧
        t.stream.length ≤ s0.length
    | .select out =>
      t.trace = ds.map Event.deliver ∧ decodable s0 = ds ++ out :: decodable t.stream ∧
        t.stream.length + 1 ≤ s0.length
    | .deferCloseRes =>
      t.trace = ds.map Event.deliver ∧ ds <+: decodable s0 ∧
        (t.ctxDone = false → ds = decodable s0)
    | .deferRespClose =>
      t.trace = ds.map Event.deliver ++ [Event.closeRes] ∧ ds <+: decodable s0 ∧
        (t.ctxDone = false → ds = decodable s0)
    | .done =>
      t.trace = ds.map Event.deliver ++ [Event.closeRes, Event.respClose] ∧
        ds <+: decodable s0 ∧ (t.ctxDone = false → ds = decodable s0)

end PinGo

namespace PinGo

/-! ## Bad nodes -/

/-- C7: a bad node whose `Err` field is a non-empty string `m` has, whatever
its `Cid` and whether or not it parses, a non-nil `Err()` that is
`errors.New(m)`, whose message is exactly `m`. -/
theorem badNode_Err_of_message {C E : Type} (parse : String → Except E C)
    (msgOf : E → String) (n : badNode) (h : n.JErr ≠ "") :
    n.Err parse = some (GoError.errorsNew n.JErr) ∧
      ∀ e, n.Err parse = some e → e.Error msgOf = n.JErr := by
  have h1 : n.Err parse = some (GoError.errorsNew n.JErr) := by
    simp [badNode.Err, h]
  refine ⟨h1, ?_⟩
  intro e he
  rw [h1] at he
  cases he
  rfl

/-- Witness of C7 on a node whose `Cid` does not parse. -/
theorem badNode_Err_of_message_witness :
    (badNode.mk "not-a-cid" "block missing").JErr ≠ "" ∧
      (badNode.Err sampleParse (badNode.mk "not-a-cid" "block missing") =
          some (GoError.errorsNew "block missing") ∧
        ∀ e, badNode.Err sampleParse (badNode.mk "not-a-cid" "block missing") = some e →
          e.Error id = "block missing") :=
  ⟨by decide, badNode_Err_of_message sampleParse id ⟨"not-a-cid", "block missing"⟩ (by decide)⟩

/-- C8: for a bad node whose `Err` field is empty, `Err()` is nil exactly when
the `Cid` parses, and when the `Cid` does not parse `Err()` is the failure the
parser returned. -/
theorem badNode_Err_of_empty {C E : Type} (parse : String → Except E C)
    (n : badNode) (h : n.JErr = "") :
    (n.Err parse = none ↔ ∃ c, parse n.Cid = .ok c) ∧
      ∀ err, parse n.Cid = .error err → n.Err parse = some (GoError.external err) := by
  constructor
  · cases hp : parse n.Cid with
    | error err => simp [badNode.Err, h, hp]
    | ok c => simp [badNode.Err, h, hp]
  · intro err hp
    simp [badNode.Err, h, hp]

/-- Witness of C8 on a node whose `Cid` parses. -/
theorem badNode_Err_of_empty_witness :
    (badNode.mk "QmRoot" "").JErr = "" ∧
      ((badNode.Err sampleParse (badNode.mk "QmRoot" "") = none ↔
          ∃ c, sampleParse (badNode.mk "QmRoot" "").Cid = .ok c) ∧
        ∀ err, sampleParse (badNode.mk "QmRoot" "").Cid = .error err →
          badNode.Err sampleParse (badNode.mk "QmRoot" "") = some (GoError.external err)) :=
  ⟨rfl, badNode_Err_of_empty sampleParse ⟨"QmRoot", ""⟩ rfl⟩

/-- C10: `Path()` of a bad node is nil exactly when its `Cid` fails to parse,
and is the IPLD path of the parsed identifier otherwise; so a nil `Err()`
comes with a non-nil `Path()`, and a nil `Path()` with a non-nil `Err()`. -/
theorem badNode_Path_nil_iff {C E R : Type} (parse : String → Except E C)
    (ipld : C → R) (n : badNode) :
    (n.Path parse ipld = none ↔ ∃ err, parse n.Cid = .error err) ∧
      (∀ c, parse n.Cid = .ok c → n.Path parse ipld = some (ipld c)) ∧
      (n.Err parse = none → n.Path parse ipld ≠ none) ∧
      (n.Path parse ipld = none → n.Err parse ≠ none) := by
  cases hp : parse n.Cid with
  | error err =>
    by_cases hj : n.JErr = "" <;> simp [badNode.Path, badNode.Err, hp, hj]
  | ok c =>
    by_cases hj : n.JErr = "" <;> simp [badNode.Path, badNode.Err, hp, hj]

/-- Witness of C10 on a node with no message whose `Cid` does not parse:
`Path()` is nil and `Err()` is not. -/
theorem badNode_Path_nil_iff_witness :
    badNode.Path sampleParse sampleIpld (badNode.mk "not-a-cid" "") = none ∧
      badNode.Err sampleParse (badNode.mk "not-a-cid" "") ≠ none :=
  ⟨rfl, (badNode_Path_nil_iff sampleParse sampleIpld ⟨"not-a-cid", ""⟩).2.2.2 rfl⟩

/-! ## Add and Update -/

/-- C9: with successfully resolved options, `Add` executes exactly one
request: endpoint `pin/add`, the single argument `p.String()`, and the option
`recursive` set to the resolved flag; its error is that request's outcome.
When option resolution fails, `Add` returns that error and executes nothing. -/
theorem Add_request {E : Type} (exec : RequestBuilder → Option E) (p : String) :
    (∀ options : PinAddSettings,
      PinAPI.Add exec p (.ok options) =
        { executed := [{ command := "pin/add", args := [p],
                         opts := [("recursive", OptValue.bool options.Recursive)] }],
          err := (exec { command := "pin/add", args := [p],
                         opts := [("recursive", OptValue.bool options.Recursive)] }).map
                   GoError.external }) ∧
      ∀ err : E, PinAPI.Add exec p (.error err) =
        { executed := [], err := some (GoError.external err) } := by
  constructor
  · intro options
    simp [PinAPI.Add, request, RequestBuilder.Option]
  · intro err
    rfl

/-- C1: what `Update` sends for the paths `/ipfs/QmOld` and `/ipfs/QmNew`: one
request to `pin/update` with the option `unpin` and an empty argument list, so
neither path is carried. -/
theorem Update_request_omits_paths :
    (PinAPI.Update (fun _ => (none : Option String)) "/ipfs/QmOld" "/ipfs/QmNew"
        (.ok { Unpin := true })).executed =
        [{ command := "pin/update", args := [],
           opts := [("unpin", OptValue.bool true)] }] ∧
      (PinAPI.Update (fun _ => (none : Option String)) "/ipfs/QmOld" "/ipfs/QmNew"
        (.ok { Unpin := true })).executed.map RequestBuilder.args ≠
        [["/ipfs/QmOld", "/ipfs/QmNew"]] := by
  decide

/-! ## Ls -/

/-- The loop of `Ls` stops at the first key that fails to parse, whatever it
has built so far. -/
theorem lsLoop_of_bad_key {C E R : Type} (parse : String → Except E C) (ipld : C → R)
    (order : List (String × pinRefKeyObject)) :
    ∀ acc : List (pin R), (∃ kv ∈ order, ∃ err, parse kv.1 = .error err) →
      ∃ kv ∈ order, ∃ err, parse kv.1 = .error err ∧
        PinAPI.lsLoop parse ipld order acc = (none, some (GoError.external err)) := by
  induction order with
  | nil =>
    intro acc h
    obtain ⟨kv, hkv, _⟩ := h
    cases hkv
  | cons hd tl ih =>
    intro acc h
    obtain ⟨hash, p⟩ := hd
    cases hp : parse hash with
    | error err =>
      exact ⟨(hash, p), List.mem_cons_self _ _, err, hp, by simp [PinAPI.lsLoop, hp]⟩
    | ok c =>
      have htl : ∃ kv ∈ tl, ∃ err, parse kv.1 = .error err := by
        obtain ⟨kv, hkv, err, herr⟩ := h
        rcases List.mem_cons.mp hkv with heq | hmem
        · subst heq
          simp [hp] at herr
        · exact ⟨kv, hmem, err, herr⟩
      obtain ⟨kv, hkv, err, herr, hres⟩ := ih (acc ++ [{ typ := p.Type_, path := some (ipld c) }]) htl
      exact ⟨kv, List.mem_cons_of_mem _ hkv, err, herr, by simp [PinAPI.lsLoop, hp, hres]⟩

/-- When every key parses, the loop of `Ls` appends one pin per entry, in the
order visited. -/
theorem lsLoop_of_good_keys {C E R : Type} (parse : String → Except E C) (ipld : C → R)
    (order : List (String × pinRefKeyObject)) :
    ∀ acc : List (pin R), (∀ kv ∈ order, ∃ c, parse kv.1 = .ok c) →
      ∃ pins : List (pin R), pins.map some = order.map (expectedPin parse ipld) ∧
        PinAPI.lsLoop parse ipld order acc = (some (acc ++ pins), none) := by
  induction order with
  | nil =>
    intro acc _
    exact ⟨[], rfl, by simp [PinAPI.lsLoop]⟩
  | cons hd tl ih =>
    intro acc h
    obtain ⟨hash, p⟩ := hd
    obtain ⟨c, hc⟩ := h (hash, p) (List.mem_cons_self _ _)
    obtain ⟨pins, hmap, hres⟩ :=
      ih (acc ++ [{ typ := p.Type_, path := some (ipld c) }])
        (fun kv hkv => h kv (List.mem_cons_of_mem _ hkv))
    refine ⟨{ typ := p.Type_, path := some (ipld c) } :: pins, ?_, ?_⟩
    · simp only [List.map_cons, hmap]
      simp [expectedPin, hc]
    · simp only [PinAPI.lsLoop]
      simp only [hc] at hc ⊢
      rw [hres]
      simp

/-- C2: when the daemon's key map has at least one key that fails to parse,
`Ls` returns, in whatever order the map is iterated, the nil list together
with the parse failure of one of the keys; no pin is returned. -/
theorem Ls_fails_on_bad_key {C E R : Type} (parse : String → Except E C) (ipld : C → R)
    (exec : RequestBuilder → Except E (List (String × pinRefKeyObject)))
    (options : PinLsSettings) (keys order : List (String × pinRefKeyObject))
    (hexec : exec ((request "pin/ls" []).Option "type" (.str options.Type_)) = .ok order)
    (hperm : order.Perm keys)
    (hbad : ∃ kv ∈ keys, ∃ err, parse kv.1 = .error err) :
    ∃ kv ∈ keys, ∃ err, parse kv.1 = .error err ∧
      PinAPI.Ls parse ipld exec (.ok options) =
        ((none : Option (List (pin R))), some (GoError.external err)) := by
  have hbad' : ∃ kv ∈ order, ∃ err, parse kv.1 = .error err := by
    obtain ⟨kv, hkv, err, herr⟩ := hbad
    exact ⟨kv, hperm.mem_iff.mpr hkv, err, herr⟩
  obtain ⟨kv, hkv, err, herr, hres⟩ := lsLoop_of_bad_key parse ipld order [] hbad'
  refine ⟨kv, hperm.mem_iff.mp hkv, err, herr, ?_⟩
  simp only [PinAPI.Ls, hexec]
  exact hres

/-- C3: when every key of the daemon's key map parses, `Ls` returns no error
and a non-nil list holding, in the order the map is iterated, the pin of each
entry: same type, path the IPLD path of the parsed key. The list has as many
pins as the map has keys (none for an empty map) and is, up to order, the
list of the expected pins of the map's entries. -/
theorem Ls_of_good_keys {C E R : Type} (parse : String → Except E C) (ipld : C → R)
    (exec : RequestBuilder → Except E (List (String × pinRefKeyObject)))
    (options : PinLsSettings) (keys order : List (String × pinRefKeyObject))
    (hexec : exec ((request "pin/ls" []).Option "type" (.str options.Type_)) = .ok order)
    (hperm : order.Perm keys)
    (hgood : ∀ kv ∈ keys, ∃ c, parse kv.1 = .ok c) :
    ∃ pins : List (pin R),
      PinAPI.Ls parse ipld exec (.ok options) = (some pins, (none : Option (GoError E))) ∧
      pins.length = keys.length ∧
      List.Forall₂ (fun kv p => p.Type_ = kv.2.Type_ ∧
          ∃ c, parse kv.1 = .ok c ∧ p.Path = some (ipld c)) order pins ∧
      (pins.map some).Perm (keys.map (expectedPin parse ipld)) ∧
      ∀ kv ∈ keys, ∃ p ∈ pins, p.Type_ = kv.2.Type_ ∧
        ∃ c, parse kv.1 = .ok c ∧ p.Path = some (ipld c) := by
  have hgood' : ∀ kv ∈ order, ∃ c, parse kv.1 = .ok c :=
    fun kv hkv => hgood kv (hperm.mem_iff.mp hkv)
  obtain ⟨pins, hmap, hres⟩ := lsLoop_of_good_keys parse ipld order [] hgood'
  have hlen : pins.length = order.length := by
    have := congrArg List.length hmap
    simpa using this
  have hget : ∀ kv, ∀ p : pin R, expectedPin parse ipld kv = some p →
      p.Type_ = kv.2.Type_ ∧ ∃ c, parse kv.1 = .ok c ∧ p.Path = some (ipld c) := by
    intro kv p hp
    unfold expectedPin at hp
    cases hc : parse kv.1 with
    | error err => simp [hc] at hp
    | ok c =>
      simp only [hc, Option.some.injEq] at hp
      subst hp
      exact ⟨rfl, c, rfl, rfl⟩
  have hall : List.Forall₂ (fun kv p => p.Type_ = kv.2.Type_ ∧
      ∃ c, parse kv.1 = .ok c ∧ p.Path = some (ipld c)) order pins := by
    clear hres hlen hexec hperm hgood'
    induction order generalizing pins with
    | nil =>
      cases pins with
      | nil => exact List.Forall₂.nil
      | cons a l => simp at hmap
    | cons kv tl ih =>
      cases pins with
      | nil => simp at hmap
      | cons a l =>
        simp only [List.map_cons, List.cons.injEq] at hmap
        exact List.Forall₂.cons (hget kv a hmap.1.symm) (ih l hmap.2)
  refine ⟨pins, ?_, ?_, hall, ?_, ?_⟩
  · simp only [PinAPI.Ls, hexec]
    simpa using hres
  · rw [hlen, hperm.length_eq]
  · rw [hmap]
    exact hperm.map _
  · intro kv hkv
    have hmem : expectedPin parse ipld kv ∈ pins.map some := by
      rw [hmap]
      exact List.mem_map_of_mem _ (hperm.mem_iff.mpr hkv)
    obtain ⟨p, hp, hpe⟩ := List.mem_map.mp hmem
    exact ⟨p, hp, hget kv p hpe.symm⟩

/-! ## The decode task of Verify: invariant -/

/-- When `Verify` returns a channel, the request was sent, the response
carried no error, and the goroutine was started on the response body. -/
theorem Verify_ok {E : Type} (send : RequestBuilder → Except E (Response E)) (t : Task)
    (h : PinAPI.Verify send = .ok t) :
    ∃ resp, send ((request "pin/verify" []).Option "verbose" (.bool true)) = .ok resp ∧
      resp.Error = none ∧ t = spawn resp.Output := by
  unfold PinAPI.Verify at h
  cases hs : send ((request "pin/verify" []).Option "verbose" (.bool true)) with
  | error err => simp [hs] at h
  | ok resp =>
    simp only [hs] at h
    cases he : resp.Error with
    | some err => simp [he] at h
    | none =>
      simp only [he, Except.ok.injEq] at h
      exact ⟨resp, rfl, he, h.symm⟩

theorem spawn_inv (s0 : List (Option pinVerifyRes)) : Inv s0 (spawn s0) :=
  ⟨[], by simp [spawn]⟩

theorem step_inv (s0 : List (Option pinVerifyRes)) (l : Label) (t t' : Task)
    (hinv : Inv s0 t) (hstep : step l t = some t') : Inv s0 t' := by
  obtain ⟨pc, stream, cd, tr⟩ := t
  obtain ⟨ds, hds⟩ := hinv
  cases l with
  | cancel =>
    simp only [step, Option.some.injEq] at hstep
    subst hstep
    cases pc <;> simp only [] at hds ⊢
    · exact ⟨ds, hds⟩
    · exact ⟨ds, hds⟩
    · exact ⟨ds, hds.1, hds.2.1, by simp⟩
    · exact ⟨ds, hds.1, hds.2.1, by simp⟩
    · exact ⟨ds, hds.1, hds.2.1, by simp⟩
  | send =>
    cases pc with
    | select out =>
      simp only [step, Option.some.injEq] at hstep
      subst hstep
      simp only [] at hds
      obtain ⟨h1, h2, h3⟩ := hds
      exact ⟨ds ++ [out], by simp [h1], by simp [h2], by simp only []; omega⟩
    | decode => simp [step] at hstep
    | deferCloseRes => simp [step] at hstep
    | deferRespClose => simp [step] at hstep
    | done => simp [step] at hstep
  | ctxDone =>
    cases pc with
    | select out =>
      simp only [] at hds
      obtain ⟨h1, h2, h3⟩ := hds
      cases cd with
      | false => simp [step] at hstep
      | true =>
        simp only [step, if_true, Option.some.injEq] at hstep
        subst hstep
        exact ⟨ds, h1, by rw [h2]; exact List.prefix_append _ _, by simp⟩
    | decode => simp [step] at hstep
    | deferCloseRes => simp [step] at hstep
    | deferRespClose => simp [step] at hstep
    | done => simp [step] at hstep
  | tick =>
    cases pc with
    | decode =>
      simp only [] at hds
      obtain ⟨h1, h2, h3⟩ := hds
      cases stream with
      | nil =>
        simp only [step, Option.some.injEq] at hstep
        subst hstep
        have : ds = decodable s0 := by simp [h2, decodable]
        exact ⟨ds, h1, by rw [this], fun _ => this⟩
      | cons hd tl =>
        cases hd with
        | none =>
          simp only [step, Option.some.injEq] at hstep
          subst hstep
          have : ds = decodable s0 := by simp [h2, decodable]
          exact ⟨ds, h1, by rw [this], fun _ => this⟩
        | some out =>
          simp only [step, Option.some.injEq] at hstep
          subst hstep
          refine ⟨ds, h1, by simpa [decodable] using h2, ?_⟩
          simp only [List.length_cons] at h3
          exact h3
    | select out => simp [step] at hstep
    | deferCloseRes =>
      simp only [step, Option.some.injEq] at hstep
      subst hstep
      simp only [] at hds
      exact ⟨ds, by simp [hds.1], hds.2.1, hds.2.2⟩
    | deferRespClose =>
      simp only [step, Option.some.injEq] at hstep
      subst hstep
      simp only [] at hds
      exact ⟨ds, by simp [hds.1], hds.2.1, hds.2.2⟩
    | done => simp [step] at hstep

theorem run_inv (s0 : List (Option pinVerifyRes)) (sched : List Label) :
    ∀ t t' : Task, Inv s0 t → run sched t = some t' → Inv s0 t' := by
  induction sched with
  | nil =>
    intro t t' hinv hrun
    simp only [run, Option.some.injEq] at hrun
    subst hrun
    exact hinv
  | cons l ls ih =>
    intro t t' hinv hrun
    simp only [run] at hrun
    cases hs : step l t with
    | none => simp [hs] at hrun
    | some t1 =>
      simp only [hs, Option.some_bind] at hrun
      exact ih t1 t' (step_inv s0 l t t1 hinv hs) hrun

theorem step_ctxDone (l : Label) (t t' : Task) (hstep : step l t = some t')
    (hl : l ≠ Label.cancel) : t'.ctxDone = t.ctxDone := by
  obtain ⟨pc, stream, cd, tr⟩ := t
  cases l with
  | cancel => exact absurd rfl hl
  | send =>
    cases pc <;> simp [step] at hstep
    subst hstep
    rfl
  | ctxDone =>
    cases pc <;> simp [step] at hstep
    obtain ⟨_, h⟩ := hstep
    subst h
    rfl
  | tick =>
    cases pc with
    | decode =>
      cases stream with
      | nil =>
        simp [step] at hstep
        subst hstep
        rfl
      | cons hd tl =>
        cases hd <;> simp [step] at hstep <;> subst hstep <;> rfl
    | select out => simp [step] at hstep
    | deferCloseRes =>
      simp [step] at hstep
      subst hstep
      rfl
    | deferRespClose =>
      simp [step] at hstep
      subst hstep
      rfl
    | done => simp [step] at hstep

theorem run_ctxDone (sched : List Label) :
    ∀ t t' : Task, run sched t = some t' → Label.cancel ∉ sched →
      t'.ctxDone = t.ctxDone := by
  induction sched with
  | nil =>
    intro t t' hrun _
    simp only [run, Option.some.injEq] at hrun
    subst hrun
    rfl
  | cons l ls ih =>
    intro t t' hrun hnc
    simp only [run] at hrun
    cases hs : step l t with
    | none => simp [hs] at hrun
    | some t1 =>
      simp only [hs, Option.some_bind] at hrun
      have h1 : l ≠ Label.cancel := fun h => hnc (by simp [h])
      have h2 : Label.cancel ∉ ls := fun h => hnc (List.mem_cons_of_mem _ h)
      rw [ih t1 t' hrun h2, step_ctxDone l t t1 hs h1]

theorem delivered_of_trace (t : Task) (ds : List pinVerifyRes) (tail : List Event)
    (h : t.trace = ds.map Event.deliver ++ tail)
    (htail : ∀ e ∈ tail, e = Event.closeRes ∨ e = Event.respClose) :
    delivered t = ds := by
  have h1 : ∀ l : List pinVerifyRes, List.filterMap (fun e => match e with
      | Event.deliver r => some r
      | _ => none) (l.map Event.deliver) = l := by
    intro l
    induction l with
    | nil => rfl
    | cons a l ih => simp [List.filterMap_cons, ih]
  have h2 : List.filterMap (fun e => match e with
      | Event.deliver r => some r
      | _ => none) tail = [] := by
    rw [List.filterMap_eq_nil_iff]
    intro e he
    rcases htail e he with h | h <;> subst h <;> rfl
  unfold delivered
  rw [h, List.filterMap_append, h1, h2, List.append_nil]

theorem closeCount_map_deliver (ds : List pinVerifyRes) (tail : List Event) :
    List.countP (fun e => match e with
      | Event.closeRes => true
      | _ => false) (ds.map Event.deliver ++ tail) =
    List.countP (fun e => match e with
      | Event.closeRes => true
      | _ => false) tail := by
  induction ds with
  | nil => rfl
  | cons a l _ => simp [List.countP_cons]

theorem releaseCount_map_deliver (ds : List pinVerifyRes) (tail : List Event) :
    List.countP (fun e => match e with
      | Event.respClose => true
      | _ => false) (ds.map Event.deliver ++ tail) =
    List.countP (fun e => match e with
      | Event.respClose => true
      | _ => false) tail := by
  induction ds with
  | nil => rfl
  | cons a l _ => simp [List.countP_cons]

/-- What the invariant says about the observations of a task. -/
theorem inv_obs (s0 : List (Option pinVerifyRes)) (t : Task) (hinv : Inv s0 t) :
    delivered t <+: decodable s0 ∧
      closeCount t ≤ 1 ∧ releaseCount t ≤ closeCount t ∧
      (t.pc = Pc.done → closeCount t = 1 ∧ releaseCount t = 1) ∧
      (1 ≤ closeCount t → t.pc = Pc.deferRespClose ∨ t.pc = Pc.done) ∧
      (t.ctxDone = false → t.trace ++ pending t =
        (decodable s0).map Event.deliver ++ [Event.closeRes, Event.respClose]) ∧
      (t.ctxDone = false → movesLeft t ≤ 2 * s0.length + 3) := by
  obtain ⟨pc, stream, cd, tr⟩ := t
  obtain ⟨ds, hds⟩ := hinv
  cases pc with
  | decode =>
    simp only [] at hds
    obtain ⟨h1, h2, h3⟩ := hds
    have hd := delivered_of_trace ⟨Pc.decode, stream, cd, tr⟩ ds [] (by simpa using h1) (by simp)
    have hc := closeCount_map_deliver ds []
    have hr := releaseCount_map_deliver ds []
    simp only [List.append_nil] at hc hr
    refine ⟨?_, ?_, ?_, ?_, ?_, ?_, ?_⟩
    · rw [hd, h2]; exact List.prefix_append _ _
    · simp [closeCount, h1, hc]
    · simp [closeCount, releaseCount, h1, hc, hr]
    · intro h; cases h
    · simp [closeCount, h1, hc]
    · intro _; simp [pending, h1, h2]
    · intro _; simp only [movesLeft]; omega
  | select out =>
    simp only [] at hds
    obtain ⟨h1, h2, h3⟩ := hds
    have hd := delivered_of_trace ⟨Pc.select out, stream, cd, tr⟩ ds [] (by simpa using h1)
      (by simp)
    have hc := closeCount_map_deliver ds []
    have hr := releaseCount_map_deliver ds []
    simp only [List.append_nil] at hc hr
    refine ⟨?_, ?_, ?_, ?_, ?_, ?_, ?_⟩
    · rw [hd, h2]; exact List.prefix_append _ _
    · simp [closeCount, h1, hc]
    · simp [closeCount, releaseCount, h1, hc, hr]
    · intro h; cases h
    · simp [closeCount, h1, hc]
    · intro _; simp [pending, h1, h2]
    · intro _; simp only [movesLeft]; omega
  | deferCloseRes =>
    simp only [] at hds
    obtain ⟨h1, h2, h3⟩ := hds
    have hd := delivered_of_trace ⟨Pc.deferCloseRes, stream, cd, tr⟩ ds [] (by simpa using h1)
      (by simp)
    have hc := closeCount_map_deliver ds []
    have hr := releaseCount_map_deliver ds []
    simp only [List.append_nil] at hc hr
    refine ⟨?_, ?_, ?_, ?_, ?_, ?_, ?_⟩
    · rw [hd]; exact h2
    · simp [closeCount, h1, hc]
    · simp [closeCount, releaseCount, h1, hc, hr]
    · intro h; cases h
    · simp [closeCount, h1, hc]
    · intro hcd; simp [pending, h1, h3 hcd]
    · intro _; simp only [movesLeft]; omega
  | deferRespClose =>
    simp only [] at hds
    obtain ⟨h1, h2, h3⟩ := hds
    have hd := delivered_of_trace ⟨Pc.deferRespClose, stream, cd, tr⟩ ds [Event.closeRes] h1
      (by simp)
    have hc := closeCount_map_deliver ds [Event.closeRes]
    have hr := releaseCount_map_deliver ds [Event.closeRes]
    refine ⟨?_, ?_, ?_, ?_, ?_, ?_, ?_⟩
    · rw [hd]; exact h2
    · simp [closeCount, h1, hc]
    · simp [closeCount, releaseCount, h1, hc, hr]
    · intro h; cases h
    · simp
    · intro hcd; simp [pending, h1, h3 hcd]
    · intro _; simp only [movesLeft]; omega
  | done =>
    simp only [] at hds
    obtain ⟨h1, h2, h3⟩ := hds
    have hd := delivered_of_trace ⟨Pc.done, stream, cd, tr⟩ ds [Event.closeRes, Event.respClose]
      h1 (by simp)
    have hc := closeCount_map_deliver ds [Event.closeRes, Event.respClose]
    have hr := releaseCount_map_deliver ds [Event.closeRes, Event.respClose]
    refine ⟨?_, ?_, ?_, ?_, ?_, ?_, ?_⟩
    · rw [hd]; exact h2
    · simp [closeCount, h1, hc]
    · simp [closeCount, releaseCount, h1, hc, hr]
    · intro _; simp [closeCount, releaseCount, h1, hc, hr]
    · simp
    · intro hcd; simp [pending, h1, h3 hcd]
    · intro _; simp only [movesLeft]; omega

/-- With a consumer that keeps receiving and no cancellation, enough fuel
takes a task to its end, and the events it adds are its pending ones. -/
theorem runToEnd_spec (fuel : Nat) :
    ∀ t : Task, movesLeft t ≤ fuel →
      (runToEnd fuel t).pc = Pc.done ∧ (runToEnd fuel t).trace = t.trace ++ pending t := by
  induction fuel with
  | zero =>
    intro t h
    obtain ⟨pc, stream, cd, tr⟩ := t
    cases pc <;> simp [movesLeft] at h
    simp [runToEnd, pending]
  | succ n ih =>
    intro t h
    obtain ⟨pc, stream, cd, tr⟩ := t
    cases pc with
    | decode =>
      cases stream with
      | nil =>
        have := ih ⟨Pc.deferCloseRes, [], cd, tr⟩ (by simp only [movesLeft]; simp only [movesLeft] at h; omega)
        simpa [runToEnd, nextMove, step, pending, decodable] using this
      | cons hd tl =>
        cases hd with
        | none =>
          have := ih ⟨Pc.deferCloseRes, tl, cd, tr⟩
            (by simp only [movesLeft]; simp only [movesLeft] at h; omega)
          simpa [runToEnd, nextMove, step, pending, decodable] using this
        | some out =>
          have := ih ⟨Pc.select out, tl, cd, tr⟩
            (by simp only [movesLeft, List.length_cons] at h ⊢; omega)
          simpa [runToEnd, nextMove, step, pending, decodable] using this
    | select out =>
      have := ih ⟨Pc.decode, stream, cd, tr ++ [Event.deliver out]⟩
        (by simp only [movesLeft] at h ⊢; omega)
      simpa [runToEnd, nextMove, step, pending] using this
    | deferCloseRes =>
      have := ih ⟨Pc.deferRespClose, stream, cd, tr ++ [Event.closeRes]⟩
        (by simp only [movesLeft] at h ⊢; omega)
      simpa [runToEnd, nextMove, step, pending] using this
    | deferRespClose =>
      have := ih ⟨Pc.done, stream, cd, tr ++ [Event.respClose]⟩
        (by simp only [movesLeft] at h ⊢; omega)
      simpa [runToEnd, nextMove, step, pending] using this
    | done =>
      simp [runToEnd, nextMove, step, pending]

/-- What `runToEnd` computes is an execution made of the task's own moves and
of sends, with no cancellation. -/
theorem runToEnd_run (fuel : Nat) :
    ∀ t : Task, ∃ sched : List Label,
      (∀ l ∈ sched, l = Label.tick ∨ l = Label.send) ∧
        run sched t = some (runToEnd fuel t) := by
  induction fuel with
  | zero =>
    intro t
    exact ⟨[], by simp, rfl⟩
  | succ n ih =>
    intro t
    cases hs : step (nextMove t) t with
    | none => exact ⟨[], by simp, by simp [runToEnd, hs, run]⟩
    | some t1 =>
      obtain ⟨sched, h1, h2⟩ := ih t1
      refine ⟨nextMove t :: sched, ?_, ?_⟩
      · intro l hl
        rcases List.mem_cons.mp hl with h | h
        · subst h
          unfold nextMove
          cases t.pc <;> simp
        · exact h1 l h
      · simp [run, runToEnd, hs, h2]

/-- Every move of the task itself uses up its budget of moves. -/
theorem step_movesLeft (l : Label) (t t' : Task) (hstep : step l t = some t')
    (hl : l ≠ Label.cancel) : movesLeft t' < movesLeft t := by
  obtain ⟨pc, stream, cd, tr⟩ := t
  cases l with
  | cancel => exact absurd rfl hl
  | send =>
    cases pc <;> simp [step] at hstep
    subst hstep
    simp [movesLeft]
  | ctxDone =>
    cases pc <;> simp [step] at hstep
    obtain ⟨_, h⟩ := hstep
    subst h
    simp only [movesLeft]
    omega
  | tick =>
    cases pc with
    | decode =>
      cases stream with
      | nil =>
        simp [step] at hstep
        subst hstep
        simp [movesLeft]
      | cons hd tl =>
        cases hd <;> simp [step] at hstep <;> subst hstep <;>
          simp only [movesLeft, List.length_cons] <;> omega
    | select out => simp [step] at hstep
    | deferCloseRes =>
      simp [step] at hstep
      subst hstep
      simp [movesLeft]
    | deferRespClose =>
      simp [step] at hstep
      subst hstep
      simp [movesLeft]
    | done => simp [step] at hstep

/-- Cancelling `ctx` leaves the task's budget of moves as it is. -/
theorem step_cancel_movesLeft (t t' : Task) (hstep : step Label.cancel t = some t') :
    movesLeft t' = movesLeft t := by
  simp only [step, Option.some.injEq] at hstep
  subst hstep
  rfl

/-- Along an execution, the moves of the task itself fit in its budget. -/
theorem run_movesLeft (sched : List Label) :
    ∀ t t' : Task, run sched t = some t' →
      (sched.filter (fun l => decide (l ≠ Label.cancel))).length + movesLeft t' ≤
        movesLeft t := by
  induction sched with
  | nil =>
    intro t t' hrun
    simp only [run, Option.some.injEq] at hrun
    subst hrun
    simp
  | cons l ls ih =>
    intro t t' hrun
    simp only [run] at hrun
    cases hs : step l t with
    | none => simp [hs] at hrun
    | some t1 =>
      simp only [hs, Option.some_bind] at hrun
      have h1 := ih t1 t' hrun
      by_cases hl : l = Label.cancel
      · subst hl
        have h2 := step_cancel_movesLeft t t1 hs
        simp only [List.filter_cons, ne_eq, not_true_eq_false, decide_False] at h1 ⊢
        simp only [Bool.false_eq_true, if_false]
        omega
      · have h2 := step_movesLeft l t t1 hs hl
        simp only [List.filter_cons, ne_eq, hl, not_false_eq_true, decide_True, if_true,
          List.length_cons] at h1 ⊢
        omega

/-- A move only ever extends the trace. -/
theorem step_trace (l : Label) (t t' : Task) (hstep : step l t = some t') :
    t.trace <+: t'.trace := by
  obtain ⟨pc, stream, cd, tr⟩ := t
  cases l with
  | cancel =>
    simp only [step, Option.some.injEq] at hstep
    subst hstep
    exact List.prefix_refl _
  | send =>
    cases pc <;> simp [step] at hstep
    subst hstep
    exact List.prefix_append _ _
  | ctxDone =>
    cases pc <;> simp [step] at hstep
    obtain ⟨_, h⟩ := hstep
    subst h
    exact List.prefix_refl _
  | tick =>
    cases pc with
    | decode =>
      cases stream with
      | nil =>
        simp [step] at hstep
        subst hstep
        exact List.prefix_refl _
      | cons hd tl =>
        cases hd <;> simp [step] at hstep <;> subst hstep <;> exact List.prefix_refl _
    | select out => simp [step] at hstep
    | deferCloseRes =>
      simp [step] at hstep
      subst hstep
      exact List.prefix_append _ _
    | deferRespClose =>
      simp [step] at hstep
      subst hstep
      exact List.prefix_append _ _
    | done => simp [step] at hstep

/-- An execution only ever extends what the consumer has received. -/
theorem run_delivered (sched : List Label) :
    ∀ t t' : Task, run sched t = some t' → delivered t <+: delivered t' := by
  induction sched with
  | nil =>
    intro t t' hrun
    simp only [run, Option.some.injEq] at hrun
    subst hrun
    exact List.prefix_refl _
  | cons l ls ih =>
    intro t t' hrun
    simp only [run] at hrun
    cases hs : step l t with
    | none => simp [hs] at hrun
    | some t1 =>
      simp only [hs, Option.some_bind] at hrun
      exact ((step_trace l t t1 hs).filterMap _).trans (ih t1 t' hrun)

/-- Only the `send` move of a task blocked in the `select` delivers. -/
theorem step_delivered (l : Label) (t t' : Task) (hstep : step l t = some t')
    (hpc : t.pc = Pc.deferRespClose ∨ t.pc = Pc.done) : delivered t' = delivered t := by
  obtain ⟨pc, stream, cd, tr⟩ := t
  simp only [] at hpc
  rcases hpc with h | h
  · subst h
    cases l <;> simp [step] at hstep <;> subst hstep
    · simp [delivered, List.filterMap_append]
    · rfl
  · subst h
    cases l <;> simp [step] at hstep
    subst hstep
    rfl

/-- While the consumer keeps receiving, a task that has not finished can move. -/
theorem step_nextMove (t : Task) (hpc : t.pc ≠ Pc.done) :
    ∃ t', step (nextMove t) t = some t' := by
  obtain ⟨pc, stream, cd, tr⟩ := t
  cases pc with
  | decode =>
    cases stream with
    | nil => exact ⟨_, rfl⟩
    | cons hd tl => cases hd <;> exact ⟨_, rfl⟩
  | select out => exact ⟨_, rfl⟩
  | deferCloseRes => exact ⟨_, rfl⟩
  | deferRespClose => exact ⟨_, rfl⟩
  | done => exact absurd rfl hpc

theorem decodable_map_some (rs : List pinVerifyRes) : decodable (rs.map some) = rs := by
  induction rs with
  | nil => rfl
  | cons r rs ih => simp [decodable, ih]

theorem run_append (a b : List Label) :
    ∀ t : Task, run (a ++ b) t = (run a t).bind (run b) := by
  induction a with
  | nil => intro t; rfl
  | cons l ls ih =>
    intro t
    simp only [List.cons_append, run]
    cases step l t with
    | none => rfl
    | some t1 => simp [ih t1]

/-- Once `ctx` is cancelled it stays cancelled. -/
theorem run_ctxDone_true (sched : List Label) :
    ∀ t t' : Task, run sched t = some t' → t.ctxDone = true → t'.ctxDone = true := by
  induction sched with
  | nil =>
    intro t t' hrun h
    simp only [run, Option.some.injEq] at hrun
    subst hrun
    exact h
  | cons l ls ih =>
    intro t t' hrun h
    simp only [run] at hrun
    cases hs : step l t with
    | none => simp [hs] at hrun
    | some t1 =>
      simp only [hs, Option.some_bind] at hrun
      refine ih t1 t' hrun ?_
      by_cases hl : l = Label.cancel
      · subst hl
        simp only [step, Option.some.injEq] at hs
        subst hs
        rfl
      · rw [step_ctxDone l t t1 hs hl, h]

/-! ## The decode task of Verify: results -/

/-- C4: in an execution of the decode task in which `ctx` is never cancelled,
what the consumer has received is at every moment a run of records from the
head of the longest decodable run of the stream, in stream order, and once
the task has finished the trace is exactly those records, each delivered once
and in order, then `close(res)`, then `resp.Close()`; nothing else (no error)
reaches the consumer. From every such moment, a consumer that keeps receiving
brings the task to its end within `2 * length + 3` moves, with that trace; in
particular a stream of `N` well-formed records yields exactly those `N`. -/
theorem Verify_task_delivers_decodable (stream : List (Option pinVerifyRes))
    (sched : List Label) (t : Task)
    (hrun : run sched (spawn stream) = some t) (hnc : Label.cancel ∉ sched) :
    delivered t <+: decodable stream ∧
      (t.pc = Pc.done →
        t.trace = (decodable stream).map Event.deliver ++ [Event.closeRes, Event.respClose]) ∧
      (∃ more : List Label, (∀ l ∈ more, l = Label.tick ∨ l = Label.send) ∧
        run more t = some (runToEnd (2 * stream.length + 3) t)) ∧
      (runToEnd (2 * stream.length + 3) t).pc = Pc.done ∧
      (runToEnd (2 * stream.length + 3) t).trace =
        (decodable stream).map Event.deliver ++ [Event.closeRes, Event.respClose] ∧
      ∀ rs : List pinVerifyRes, stream = rs.map some →
        (runToEnd (2 * stream.length + 3) t).trace =
          rs.map Event.deliver ++ [Event.closeRes, Event.respClose] := by
  have hinv := run_inv stream sched (spawn stream) t (spawn_inv stream) hrun
  have hcd : t.ctxDone = false := run_ctxDone sched (spawn stream) t hrun hnc
  obtain ⟨h1, _, _, _, _, h6, h7⟩ := inv_obs stream t hinv
  obtain ⟨e1, e2⟩ := runToEnd_spec (2 * stream.length + 3) t (h7 hcd)
  have htrace : (runToEnd (2 * stream.length + 3) t).trace =
      (decodable stream).map Event.deliver ++ [Event.closeRes, Event.respClose] := by
    rw [e2, h6 hcd]
  refine ⟨h1, ?_, runToEnd_run _ t, e1, htrace, ?_⟩
  · intro hpc
    have := h6 hcd
    simpa [pending, hpc] using this
  · intro rs hrs
    rw [htrace, hrs, decodable_map_some]

/-- Witness of C4: two records, then a value that fails to decode, then a
record that is never reached. -/
theorem Verify_task_delivers_decodable_witness :
    ∃ t : Task,
      run [.tick, .send, .tick, .send, .tick, .tick, .tick]
        (spawn [some (sampleRecord "QmA"), some (sampleRecord "QmB"), none,
          some (sampleRecord "QmC")]) = some t ∧
      Label.cancel ∉ [Label.tick, .send, .tick, .send, .tick, .tick, .tick] ∧
      t.pc = Pc.done ∧
      t.trace = [Event.deliver (sampleRecord "QmA"), Event.deliver (sampleRecord "QmB"),
        Event.closeRes, Event.respClose] :=
  ⟨{ pc := .done, stream := [some (sampleRecord "QmC")], ctxDone := false,
     trace := [Event.deliver (sampleRecord "QmA"), Event.deliver (sampleRecord "QmB"),
       Event.closeRes, Event.respClose] },
   by decide, by decide, rfl,
   (Verify_task_delivers_decodable
      [some (sampleRecord "QmA"), some (sampleRecord "QmB"), none, some (sampleRecord "QmC")]
      [.tick, .send, .tick, .send, .tick, .tick, .tick] _ (by decide) (by decide)).2.1 rfl⟩

/-- A finished state reached from a state that satisfies the invariant has
run `close(res)` and `resp.Close()` exactly once each. -/
theorem finished_counts (s0 : List (Option pinVerifyRes)) (moves : List Label)
    (t t' : Task) (hinv : Inv s0 t) (hrun : run moves t = some t') (hpc : t'.pc = Pc.done) :
    closeCount t' = 1 ∧ releaseCount t' = 1 := by
  have hinv' := run_inv s0 moves t t' hinv hrun
  obtain ⟨_, _, _, k4, _, _, _⟩ := inv_obs s0 t' hinv'
  exact k4 hpc

/-- C5: in every state the decode task can reach, under any behaviour of the
consumer and of `ctx`, `close(res)` and `resp.Close()` have each run at most
once, `resp.Close()` never before `close(res)`, and both exactly once when the
task has finished; once `res` is closed no move delivers a record. Each exit
of the loop leads to the finished state by the task's own moves, which add to
the trace exactly `close(res)` and then `resp.Close()`: `Decode` failing at
end-of-stream, `Decode` failing on a malformed value, and the `select` taking
the cancelled case while the task waits to send. The task can wait nowhere
but in the `select`, and with a consumer that keeps receiving it finishes
within its budget of moves, closed and released exactly once. -/
theorem Verify_task_closes_once (stream : List (Option pinVerifyRes))
    (sched : List Label) (t : Task) (hrun : run sched (spawn stream) = some t) :
    closeCount t ≤ 1 ∧ releaseCount t ≤ 1 ∧ releaseCount t ≤ closeCount t ∧
      (t.pc = Pc.done → closeCount t = 1 ∧ releaseCount t = 1) ∧
      (∀ l t', 1 ≤ closeCount t → step l t = some t' → delivered t' = delivered t) ∧
      (t.pc = Pc.deferCloseRes →
        ∃ t', run [Label.tick, Label.tick] t = some t' ∧ t'.pc = Pc.done ∧
          delivered t' = delivered t ∧ closeCount t' = 1 ∧ releaseCount t' = 1) ∧
      (t.pc = Pc.decode → t.stream = [] →
        FinishesBy [Label.tick, Label.tick, Label.tick] t) ∧
      (t.pc = Pc.decode → ∀ rest, t.stream = none :: rest →
        FinishesBy [Label.tick, Label.tick, Label.tick] t) ∧
      (∀ out, t.pc = Pc.select out → t.ctxDone = true →
        FinishesBy [Label.ctxDone, Label.tick, Label.tick] t) ∧
      (t.pc = Pc.deferCloseRes → FinishesBy [Label.tick, Label.tick] t) ∧
      (t.pc = Pc.deferRespClose →
        ∃ t', run [Label.tick] t = some t' ∧ t'.pc = Pc.done ∧
          t'.trace = t.trace ++ [Event.respClose] ∧
          closeCount t' = 1 ∧ releaseCount t' = 1) ∧
      (t.pc ≠ Pc.done → (∃ out, t.pc = Pc.select out) ∨ ∃ t', step Label.tick t = some t') ∧
      ((runToEnd (movesLeft t) t).pc = Pc.done ∧
        closeCount (runToEnd (movesLeft t) t) = 1 ∧
        releaseCount (runToEnd (movesLeft t) t) = 1) := by
  have hinv := run_inv stream sched (spawn stream) t (spawn_inv stream) hrun
  obtain ⟨_, h2, h3, h4, h5, _, _⟩ := inv_obs stream t hinv
  refine ⟨h2, le_trans h3 h2, h3, h4, ?_, ?_, ?_, ?_, ?_, ?_, ?_, ?_, ?_⟩
  · intro l t' hc hstep
    exact step_delivered l t t' hstep (h5 hc)
  · intro hpc
    obtain ⟨pc, stream', cd, tr⟩ := t
    simp only [] at hpc
    subst hpc
    have hrun2 : run [Label.tick, Label.tick] ⟨Pc.deferCloseRes, stream', cd, tr⟩ =
        some ⟨Pc.done, stream', cd, tr ++ [Event.closeRes] ++ [Event.respClose]⟩ := rfl
    obtain ⟨k1, k2⟩ := finished_counts stream _ _ _ hinv hrun2 rfl
    refine ⟨_, hrun2, rfl, ?_, k1, k2⟩
    simp [delivered, List.filterMap_append]
  · intro hpc hs
    obtain ⟨pc, stream', cd, tr⟩ := t
    simp only [] at hpc hs
    subst hpc
    subst hs
    have hrun3 : run [Label.tick, Label.tick, Label.tick] ⟨Pc.decode, [], cd, tr⟩ =
        some ⟨Pc.done, [], cd, tr ++ [Event.closeRes] ++ [Event.respClose]⟩ := rfl
    obtain ⟨k1, k2⟩ := finished_counts stream _ _ _ hinv hrun3 rfl
    exact ⟨_, hrun3, rfl, by simp, k1, k2⟩
  · intro hpc rest hs
    obtain ⟨pc, stream', cd, tr⟩ := t
    simp only [] at hpc hs
    subst hpc
    subst hs
    have hrun3 : run [Label.tick, Label.tick, Label.tick] ⟨Pc.decode, none :: rest, cd, tr⟩ =
        some ⟨Pc.done, rest, cd, tr ++ [Event.closeRes] ++ [Event.respClose]⟩ := rfl
    obtain ⟨k1, k2⟩ := finished_counts stream _ _ _ hinv hrun3 rfl
    exact ⟨_, hrun3, rfl, by simp, k1, k2⟩
  · intro out hpc hcd
    obtain ⟨pc, stream', cd, tr⟩ := t
    simp only [] at hpc hcd
    subst hpc
    subst hcd
    have hrun3 : run [Label.ctxDone, Label.tick, Label.tick]
        ⟨Pc.select out, stream', true, tr⟩ =
        some ⟨Pc.done, stream', true, tr ++ [Event.closeRes] ++ [Event.respClose]⟩ := rfl
    obtain ⟨k1, k2⟩ := finished_counts stream _ _ _ hinv hrun3 rfl
    exact ⟨_, hrun3, rfl, by simp, k1, k2⟩
  · intro hpc
    obtain ⟨pc, stream', cd, tr⟩ := t
    simp only [] at hpc
    subst hpc
    have hrun2 : run [Label.tick, Label.tick] ⟨Pc.deferCloseRes, stream', cd, tr⟩ =
        some ⟨Pc.done, stream', cd, tr ++ [Event.closeRes] ++ [Event.respClose]⟩ := rfl
    obtain ⟨k1, k2⟩ := finished_counts stream _ _ _ hinv hrun2 rfl
    exact ⟨_, hrun2, rfl, by simp, k1, k2⟩
  · intro hpc
    obtain ⟨pc, stream', cd, tr⟩ := t
    simp only [] at hpc
    subst hpc
    have hrun1 : run [Label.tick] ⟨Pc.deferRespClose, stream', cd, tr⟩ =
        some ⟨Pc.done, stream', cd, tr ++ [Event.respClose]⟩ := rfl
    obtain ⟨k1, k2⟩ := finished_counts stream _ _ _ hinv hrun1 rfl
    exact ⟨_, hrun1, rfl, rfl, k1, k2⟩
  · intro hpc
    obtain ⟨pc, stream', cd, tr⟩ := t
    cases pc with
    | decode =>
      right
      cases stream' with
      | nil => exact ⟨_, rfl⟩
      | cons hd tl => cases hd <;> exact ⟨_, rfl⟩
    | select out => exact Or.inl ⟨out, rfl⟩
    | deferCloseRes => exact Or.inr ⟨_, rfl⟩
    | deferRespClose => exact Or.inr ⟨_, rfl⟩
    | done => exact absurd rfl hpc
  · obtain ⟨e1, _⟩ := runToEnd_spec (movesLeft t) t (le_refl _)
    obtain ⟨more, _, hmore⟩ := runToEnd_run (movesLeft t) t
    obtain ⟨k1, k2⟩ := finished_counts stream more t _ hinv hmore e1
    exact ⟨e1, k1, k2⟩

/-- Witness of C5, one execution for each exit of the loop: the stream ends
after one record; a malformed value follows one record; and `ctx` is cancelled
while the task waits to send the second record. In each the task then
finishes, adding `close(res)` and `resp.Close()` to its trace. -/
theorem Verify_task_closes_once_witness :
    (run [.tick, .send] (spawn [some (sampleRecord "QmA")]) =
        some { pc := .decode, stream := [], ctxDone := false,
               trace := [Event.deliver (sampleRecord "QmA")] } ∧
      FinishesBy [Label.tick, Label.tick, Label.tick]
        { pc := .decode, stream := [], ctxDone := false,
          trace := [Event.deliver (sampleRecord "QmA")] }) ∧
    (run [.tick, .send] (spawn [some (sampleRecord "QmA"), none, some (sampleRecord "QmB")]) =
        some { pc := .decode, stream := [none, some (sampleRecord "QmB")], ctxDone := false,
               trace := [Event.deliver (sampleRecord "QmA")] } ∧
      FinishesBy [Label.tick, Label.tick, Label.tick]
        { pc := .decode, stream := [none, some (sampleRecord "QmB")], ctxDone := false,
          trace := [Event.deliver (sampleRecord "QmA")] }) ∧
    (run [.tick, .send, .tick, .cancel]
        (spawn [some (sampleRecord "QmA"), some (sampleRecord "QmB")]) =
        some { pc := .select (sampleRecord "QmB"), stream := [], ctxDone := true,
               trace := [Event.deliver (sampleRecord "QmA")] } ∧
      FinishesBy [Label.ctxDone, Label.tick, Label.tick]
        { pc := .select (sampleRecord "QmB"), stream := [], ctxDone := true,
          trace := [Event.deliver (sampleRecord "QmA")] }) :=
  ⟨⟨by decide,
    (Verify_task_closes_once [some (sampleRecord "QmA")] [.tick, .send]
      { pc := .decode, stream := [], ctxDone := false,
        trace := [Event.deliver (sampleRecord "QmA")] }
      (by decide)).2.2.2.2.2.2.1 rfl rfl⟩,
   ⟨by decide,
    (Verify_task_closes_once [some (sampleRecord "QmA"), none, some (sampleRecord "QmB")]
      [.tick, .send]
      { pc := .decode, stream := [none, some (sampleRecord "QmB")], ctxDone := false,
        trace := [Event.deliver (sampleRecord "QmA")] }
      (by decide)).2.2.2.2.2.2.2.1 rfl [some (sampleRecord "QmB")] rfl⟩,
   ⟨by decide,
    (Verify_task_closes_once [some (sampleRecord "QmA"), some (sampleRecord "QmB")]
      [.tick, .send, .tick, .cancel]
      { pc := .select (sampleRecord "QmB"), stream := [], ctxDone := true,
        trace := [Event.deliver (sampleRecord "QmA")] }
      (by decide)).2.2.2.2.2.2.2.2.1 (sampleRecord "QmB") rfl rfl⟩⟩

/-- C6, as stated, fails: on a stream of three well-formed records with a
consumer that keeps receiving, `ctx` is cancelled after the first record has
been consumed, both later `select`s take the send case, and the task delivers
two more records before it closes `res` and releases the response. -/
theorem Verify_task_cancel_two_more :
    ∃ t1 t : Task,
      run [.tick, .send]
        (spawn ([sampleRecord "QmA", sampleRecord "QmB", sampleRecord "QmC"].map some)) =
          some t1 ∧
      delivered t1 = [sampleRecord "QmA"] ∧
      run [.cancel, .tick, .send, .tick, .send, .tick, .tick, .tick] t1 = some t ∧
      t.pc = Pc.done ∧ t.ctxDone = true ∧
      delivered t = [sampleRecord "QmA", sampleRecord "QmB", sampleRecord "QmC"] ∧
      ¬ (delivered t).length ≤ (delivered t1).length + 1 :=
  ⟨{ pc := .decode, stream := [some (sampleRecord "QmB"), some (sampleRecord "QmC")],
     ctxDone := false, trace := [Event.deliver (sampleRecord "QmA")] },
   { pc := .done, stream := [], ctxDone := true,
     trace := [Event.deliver (sampleRecord "QmA"), Event.deliver (sampleRecord "QmB"),
       Event.deliver (sampleRecord "QmC"), Event.closeRes, Event.respClose] },
   by decide, by decide, by decide, rfl, rfl, by decide, by decide⟩

/-- C6, amended: on a stream of well-formed records with a consumer that keeps
receiving, once `ctx` has been cancelled after the first record was consumed,
the task delivers only further records of the stream, in stream order, hence
no more than the `N - 1` that remain; the whole execution has at most
`2 * N + 3` moves of the task, which can always move until it has finished;
whenever it waits in the `select` the cancelled case is enabled, and taking it
ends the task with no further delivery, `res` closed and the response released
exactly once each, as in every finished state. -/
theorem Verify_task_after_cancel (rs : List pinVerifyRes) (before after : List Label)
    (t1 t : Task)
    (hbefore : run before (spawn (rs.map some)) = some t1)
    (hone : (delivered t1).length = 1)
    (hafter : run (Label.cancel :: after) t1 = some t) :
    t.ctxDone = true ∧
      delivered t1 <+: delivered t ∧ delivered t <+: rs ∧
      (delivered t).length ≤ (delivered t1).length + (rs.length - 1) ∧
      ((before ++ Label.cancel :: after).filter (fun l => decide (l ≠ Label.cancel))).length ≤
        2 * rs.length + 3 ∧
      (t.pc ≠ Pc.done → ∃ t', step (nextMove t) t = some t') ∧
      (∀ out, t.pc = Pc.select out →
        ∃ t', run [Label.ctxDone, Label.tick, Label.tick] t = some t' ∧ t'.pc = Pc.done ∧
          delivered t' = delivered t ∧ closeCount t' = 1 ∧ releaseCount t' = 1) ∧
      (t.pc = Pc.done → closeCount t = 1 ∧ releaseCount t = 1) := by
  have hall : run (before ++ Label.cancel :: after) (spawn (rs.map some)) = some t := by
    rw [run_append, hbefore]
    exact hafter
  have hinv := run_inv (rs.map some) _ (spawn (rs.map some)) t (spawn_inv _) hall
  obtain ⟨h1, _, _, h4, _, _, _⟩ := inv_obs (rs.map some) t hinv
  rw [decodable_map_some] at h1
  have hcd : t.ctxDone = true := by
    simp only [run] at hafter
    cases hs : step Label.cancel t1 with
    | none => simp [hs] at hafter
    | some t2 =>
      simp only [hs, Option.some_bind] at hafter
      refine run_ctxDone_true after t2 t hafter ?_
      simp only [step, Option.some.injEq] at hs
      subst hs
      rfl
  have hmoves := run_movesLeft _ _ _ hall
  have hlen := h1.length_le
  refine ⟨hcd, run_delivered _ t1 t hafter, h1, by omega, ?_, step_nextMove t, ?_, h4⟩
  · have : movesLeft (spawn (rs.map some)) = 2 * rs.length + 3 := by
      simp [movesLeft, spawn]
    omega
  · intro out hpc
    obtain ⟨pc, stream', cd, tr⟩ := t
    simp only [] at hpc hcd
    subst hpc
    subst hcd
    have hrun3 : run [Label.ctxDone, Label.tick, Label.tick] ⟨Pc.select out, stream', true, tr⟩ =
        some ⟨Pc.done, stream', true, tr ++ [Event.closeRes] ++ [Event.respClose]⟩ := rfl
    have hinv3 := run_inv (rs.map some) _ _ _ hinv hrun3
    obtain ⟨_, _, _, k4, _, _, _⟩ := inv_obs (rs.map some) _ hinv3
    refine ⟨_, hrun3, rfl, ?_, (k4 rfl).1, (k4 rfl).2⟩
    simp [delivered, List.filterMap_append]

/-- Witness of C6, amended: after the first of three records `ctx` is
cancelled, the next `select` still sends, and the task then waits in the
`select` with the third record, where the cancelled case ends it. -/
theorem Verify_task_after_cancel_witness :
    ∃ t1 t : Task,
      run [.tick, .send]
        (spawn ([sampleRecord "QmA", sampleRecord "QmB", sampleRecord "QmC"].map some)) =
          some t1 ∧
      (delivered t1).length = 1 ∧
      run [.cancel, .tick, .send, .tick] t1 = some t ∧
      t.ctxDone = true ∧
      delivered t = [sampleRecord "QmA", sampleRecord "QmB"] ∧
      ∃ t', run [Label.ctxDone, Label.tick, Label.tick] t = some t' ∧ t'.pc = Pc.done ∧
        delivered t' = delivered t ∧ closeCount t' = 1 ∧ releaseCount t' = 1 :=
  by
  have h := Verify_task_after_cancel
    [sampleRecord "QmA", sampleRecord "QmB", sampleRecord "QmC"]
    [.tick, .send] [.tick, .send, .tick]
    { pc := .decode, stream := [some (sampleRecord "QmB"), some (sampleRecord "QmC")],
      ctxDone := false, trace := [Event.deliver (sampleRecord "QmA")] }
    { pc := .select (sampleRecord "QmC"), stream := [], ctxDone := true,
      trace := [Event.deliver (sampleRecord "QmA"), Event.deliver (sampleRecord "QmB")] }
    (by decide) (by decide) (by decide)
  exact ⟨{ pc := .decode, stream := [some (sampleRecord "QmB"), some (sampleRecord "QmC")],
           ctxDone := false, trace := [Event.deliver (sampleRecord "QmA")] },
         { pc := .select (sampleRecord "QmC"), stream := [], ctxDone := true,
           trace := [Event.deliver (sampleRecord "QmA"), Event.deliver (sampleRecord "QmB")] },
         by decide, by decide, by decide, h.1, by decide,
         h.2.2.2.2.2.2.1 (sampleRecord "QmC") rfl⟩

/-! ## Ls on concrete key maps -/

/-- Witness of C2: a key map with one well-formed and one malformed key,
iterated with the well-formed key first. -/
theorem Ls_fails_on_bad_key_witness :
    (fun _ => Except.ok [("QmA", pinRefKeyObject.mk "recursive"), ("zzz", ⟨"direct"⟩)] :
        RequestBuilder → Except String (List (String × pinRefKeyObject)))
      ((request "pin/ls" []).Option "type" (.str "all")) =
        .ok [("QmA", ⟨"recursive"⟩), ("zzz", ⟨"direct"⟩)] ∧
    [("QmA", pinRefKeyObject.mk "recursive"), ("zzz", ⟨"direct"⟩)].Perm
      [("zzz", ⟨"direct"⟩), ("QmA", ⟨"recursive"⟩)] ∧
    (∃ kv ∈ [("zzz", pinRefKeyObject.mk "direct"), ("QmA", ⟨"recursive"⟩)],
      ∃ err, sampleParse kv.1 = .error err) ∧
    ∃ kv ∈ [("zzz", pinRefKeyObject.mk "direct"), ("QmA", ⟨"recursive"⟩)],
      ∃ err, sampleParse kv.1 = .error err ∧
        PinAPI.Ls sampleParse sampleIpld
          (fun _ => .ok [("QmA", ⟨"recursive"⟩), ("zzz", ⟨"direct"⟩)]) (.ok ⟨"all"⟩) =
          ((none : Option (List (pin String))), some (GoError.external err)) :=
  ⟨rfl, List.Perm.swap _ _ _,
   ⟨("zzz", ⟨"direct"⟩), by simp, "invalid cid: zzz", rfl⟩,
   Ls_fails_on_bad_key sampleParse sampleIpld
     (fun _ => .ok [("QmA", ⟨"recursive"⟩), ("zzz", ⟨"direct"⟩)]) ⟨"all"⟩
     [("zzz", ⟨"direct"⟩), ("QmA", ⟨"recursive"⟩)]
     [("QmA", ⟨"recursive"⟩), ("zzz", ⟨"direct"⟩)]
     rfl (List.Perm.swap _ _ _)
     ⟨("zzz", ⟨"direct"⟩), by simp, "invalid cid: zzz", rfl⟩⟩

/-- Witness of C3: a key map with two well-formed keys, iterated in the other
order than it is written. -/
theorem Ls_of_good_keys_witness :
    ∃ pins : List (pin String),
      PinAPI.Ls sampleParse sampleIpld
          (fun _ => .ok [("QmB", ⟨"direct"⟩), ("QmA", ⟨"recursive"⟩)]) (.ok ⟨"all"⟩) =
        (some pins, (none : Option (GoError String))) ∧
      pins.length = 2 ∧
      ∃ p ∈ pins, p.Type_ = "recursive" ∧ p.Path = some "/ipld/QmA" := by
  obtain ⟨pins, h1, h2, _, _, h5⟩ := Ls_of_good_keys sampleParse sampleIpld
     (fun _ => .ok [("QmB", ⟨"direct"⟩), ("QmA", ⟨"recursive"⟩)]) ⟨"all"⟩
     [("QmA", ⟨"recursive"⟩), ("QmB", ⟨"direct"⟩)]
     [("QmB", ⟨"direct"⟩), ("QmA", ⟨"recursive"⟩)]
     rfl (List.Perm.swap _ _ _)
     (by
       intro kv hkv
       simp only [List.mem_cons, List.mem_singleton, List.not_mem_nil, or_false] at hkv
       rcases hkv with h | h <;> subst h
       · exact ⟨"QmA", rfl⟩
       · exact ⟨"QmB", rfl⟩)
  refine ⟨pins, h1, h2, ?_⟩
  obtain ⟨p, hp, hty, c, hc, hpath⟩ := h5 ("QmA", ⟨"recursive"⟩) (by simp)
  refine ⟨p, hp, hty, ?_⟩
  have hc' : c = "QmA" := by
    have : sampleParse "QmA" = .ok "QmA" := rfl
    rw [this] at hc
    cases hc
    rfl
  rw [hpath, hc']
  decide

end PinGo
